import Mathlib

/-!
Shallow embedding of `stock_eda.py`: the per-ticker price tables, the
close-column resolver, the cross-ticker aggregation of close series, the
forward/backward gap filling, the per-ticker reconciliation of cleaned
close values, and the fetch loop of `fetch_data` / `main`.

Modelling conventions:
  * a calendar date is a `Nat` (only equality, membership and ordering of
    dates matter to the claims);
  * a price value is an `Int`; a missing cell (pandas `NaN`) is `none`;
  * a pandas `DataFrame` is a `Table`: one shared date index plus a list
    of named columns, each column carrying its values (positionally
    aligned with the index) and a dtype flag `numeric` (the only dtype
    information `select_dtypes(include=["number"])` inspects);
  * a pandas `Series` with a date index is a `Series`: a list of
    (date, optional value) pairs;
  * a Python `dict` keyed by ticker is an association list in insertion
    order, where writing to an existing key overwrites in place.
-/

set_option autoImplicit false

abbrev Date := Nat

/-- Col models one named column of a pandas DataFrame: its label, its
dtype reduced to the one bit the code inspects (numeric or not), and its
cell values, `none` standing for a missing value. -/
structure Col where
  name : String
  numeric : Bool
  values : List (Option Int)
deriving DecidableEq

/-- Table models a pandas DataFrame: a shared date index plus columns
whose values align positionally with that index. -/
structure Table where
  index : List Date
  cols : List Col
deriving DecidableEq

/-- Series models a pandas Series over a date index: date/value pairs,
`none` standing for a missing value. -/
abbrev Series := List (Date × Option Int)

/-! ### String helpers for the fuzzy column match
`"close" in str(col).lower()` from `perform_eda`. -/

/-- matchHead pat l is true when pat is an initial segment of l. -/
def matchHead : List Char → List Char → Bool
  | [], _ => true
  | _ :: _, [] => false
  | p :: ps, x :: xs => p == x && matchHead ps xs

/-- containsSeg pat l is true when pat occurs contiguously inside l. -/
def containsSeg (pat : List Char) : List Char → Bool
  | [] => pat.isEmpty
  | x :: xs => matchHead pat (x :: xs) || containsSeg pat xs

/-- lowerChars s is the character list of s lowercased, as Python's
`str.lower` produces for the ASCII column names at hand. -/
def lowerChars (s : String) : List Char :=
  s.toList.map Char.toLower

/-- hasCloseLower name mirrors `"close" in str(col).lower()`. -/
def hasCloseLower (name : String) : Bool :=
  containsSeg ("close".toList) (lowerChars name)

/-! ### Column Resolver (`perform_eda`, the close_series loop) -/

/-- findColExact t is the column selected by `df["Close"]` when
`"Close" in df.columns`: the first column named exactly "Close" (the
`iloc[:, 0]` reduction takes the first on duplicate labels). -/
def findColExact (t : Table) : Option Col :=
  t.cols.find? (fun c => c.name == "Close")

/-- findColFuzzy t is the first column whose name contains "close"
case-insensitively, as in the `for col in cols` loop. -/
def findColFuzzy (t : Table) : Option Col :=
  t.cols.find? (fun c => hasCloseLower c.name)

/-- numericCols t mirrors `df.select_dtypes(include=["number"])`: the
numeric-dtype columns in original order. -/
def numericCols (t : Table) : List Col :=
  t.cols.filter (fun c => c.numeric)

/-- allMissing t is `pd.Series(index=df.index, dtype="float64")`: an
all-missing series over the table's date index. -/
def allMissing (t : Table) : Series :=
  t.index.map (fun d => (d, (none : Option Int)))

/-- resolveClose t is the close series the resolver block of
`perform_eda` stores in `close_series[t]`: exact "Close" column, else
first fuzzy "close" match, else (when `select_dtypes` yields a DataFrame
that is not `.empty`, i.e. it has a column and the index has a row) the
first numeric column, else the all-missing placeholder. A selected
column is aligned with the table's index by pairing positionally, as the
shared DataFrame index does. -/
def resolveClose (t : Table) : Series :=
  match findColExact t with
  | some c => t.index.zip c.values
  | none =>
    match findColFuzzy t with
    | some c => t.index.zip c.values
    | none =>
      match numericCols t with
      | c :: _ => if t.index.isEmpty then allMissing t else t.index.zip c.values
      | [] => allMissing t

/-- resolveCloseSpec is the resolver as the spec words it, for the
refinement claim: rule 3 is "else, first column of numeric type" with no
separate emptiness test, rule 4 "an all-missing series over the table's
index". -/
def resolveCloseSpec (t : Table) : Series :=
  match findColExact t with
  | some c => t.index.zip c.values
  | none =>
    match findColFuzzy t with
    | some c => t.index.zip c.values
    | none =>
      match numericCols t with
      | c :: _ => t.index.zip c.values
      | [] => allMissing t

/-! ### Gap Filler (`close_df.ffill().bfill()`) -/

/-- ffillGo last l forward-fills l, `last` being the most recent
non-missing value seen so far (`none` before any). -/
def ffillGo (last : Option Int) : List (Option Int) → List (Option Int)
  | [] => []
  | none :: xs => last :: ffillGo last xs
  | some v :: xs => some v :: ffillGo (some v) xs

/-- ffillList is pandas `Series.ffill` on one column. -/
def ffillList (l : List (Option Int)) : List (Option Int) :=
  ffillGo none l

/-- bfillList is pandas `Series.bfill` on one column: forward-fill of the
reversed column, reversed back. -/
def bfillList (l : List (Option Int)) : List (Option Int) :=
  (ffillGo none l.reverse).reverse

/-- cleanList is the per-column effect of `close_df.ffill().bfill()`. -/
def cleanList (l : List (Option Int)) : List (Option Int) :=
  bfillList (ffillList l)

/-- ffillTable is `DataFrame.ffill`: forward-fill each column down the
rows, index unchanged. -/
def ffillTable (t : Table) : Table :=
  { t with cols := t.cols.map (fun c => { c with values := ffillList c.values }) }

/-- bfillTable is `DataFrame.bfill`. -/
def bfillTable (t : Table) : Table :=
  { t with cols := t.cols.map (fun c => { c with values := bfillList c.values }) }

/-- cleanTable is `close_df.ffill().bfill()` from `perform_eda`. -/
def cleanTable (t : Table) : Table :=
  bfillTable (ffillTable t)

/-! ### Cross-Ticker Aggregator (`perform_eda`, close_df construction) -/

/-- lookupDate s d is the value a date-indexed pandas Series yields for
date d: the value stored at d, or missing when d is not in its index. -/
def lookupDate (s : Series) (d : Date) : Option Int :=
  match s.find? (fun e => e.1 == d) with
  | some e => e.2
  | none => none

/-- seriesDates s is the date index of the series. -/
def seriesDates (s : Series) : List Date :=
  s.map Prod.fst

/-- insertDate inserts a date into a sorted duplicate-free date list,
keeping it sorted and duplicate-free. -/
def insertDate (d : Date) : List Date → List Date
  | [] => [d]
  | x :: xs => if d < x then d :: x :: xs else if d = x then x :: xs else x :: insertDate d xs

/-- sortDedup sorts a date list ascending and removes duplicates, as the
union of monotonic DatetimeIndexes behaves under `pd.concat`. -/
def sortDedup (l : List Date) : List Date :=
  l.foldr insertDate []

/-- unionDates ss is the outer-join row index of `pd.concat(_, axis=1)`:
the sorted duplicate-free union of all the series' dates. -/
def unionDates (ss : List (String × Series)) : List Date :=
  sortDedup (ss.foldr (fun p acc => seriesDates p.2 ++ acc) [])

/-- aggregateClose models the close_df construction of `perform_eda`:
with exactly one ticker, `single_series.to_frame(name=only_ticker)`;
otherwise `pd.concat(close_series, axis=1)`, an outer join by date with
one column per ticker in input order, missing where a series has no
value for a row's date. (pandas raises on zero series; that case is
unreachable because `main` exits first when no data was fetched.) The
aggregated close columns are float64, hence marked numeric. -/
def aggregateClose (ss : List (String × Series)) : Table :=
  match ss with
  | [(tick, s)] =>
      { index := s.map Prod.fst,
        cols := [{ name := tick, numeric := true, values := s.map Prod.snd }] }
  | _ =>
      let idx := unionDates ss
      { index := idx,
        cols := ss.map (fun p =>
          { name := p.1, numeric := true, values := idx.map (fun d => lookupDate p.2 d) }) }

/-! ### Per-Ticker Reconciler (`save_cleaned_individuals`) -/

/-- colToSeries t name is `t[name]` as a date-indexed series: the first
column with that label, paired with the table's index. (In the pipeline
the ticker column is always present in the cleaned table.) -/
def colToSeries (t : Table) (name : String) : Series :=
  match t.cols.find? (fun c => c.name == name) with
  | some c => t.index.zip c.values
  | none => []

/-- reconcileTicker models one iteration of `save_cleaned_individuals`:
copy the original table and, when a column named exactly "Close" exists,
assign `df_copy["Close"] = cleaned_close[t]`, which realigns the cleaned
series onto the original's date index (missing where the cleaned table
lacks that date) and leaves every other column untouched. Assignment of
a float64 series makes the written column numeric. -/
def reconcileTicker (cleaned : Table) (tick : String) (orig : Table) : Table :=
  if orig.cols.any (fun c => c.name == "Close") then
    let s := colToSeries cleaned tick
    { orig with cols := orig.cols.map (fun c =>
        if c.name == "Close"
        then { c with numeric := true, values := orig.index.map (fun d => lookupDate s d) }
        else c) }
  else orig

/-- closeLikeName t names the close-like column of a table under the
resolver's fallback rules (glossary sense), for stating the spec's
reconciliation behaviour. -/
def closeLikeName (t : Table) : Option String :=
  match findColExact t with
  | some c => some c.name
  | none =>
    match findColFuzzy t with
    | some c => some c.name
    | none =>
      match numericCols t with
      | c :: _ => some c.name
      | [] => none

/-- reconcileTickerSpec is the reconciler as the spec words it: replace
only the close-like column (realigned by date), preserve all other
columns, invent nothing when no close-like column exists. -/
def reconcileTickerSpec (cleaned : Table) (tick : String) (orig : Table) : Table :=
  match closeLikeName orig with
  | none => orig
  | some nm =>
    let s := colToSeries cleaned tick
    { orig with cols := orig.cols.map (fun c =>
        if c.name == nm
        then { c with numeric := true, values := orig.index.map (fun d => lookupDate s d) }
        else c) }

/-! ### Ticker Data Fetcher (`fetch_data`) and the driver guard (`main`) -/

/-- dictInsert is `out[t] = df` on a Python dict: overwrite in place when
the key exists, append otherwise. -/
def dictInsert (k : String) (v : Table) : List (String × Table) → List (String × Table)
  | [] => [(k, v)]
  | (k', v') :: rest => if k = k' then (k, v) :: rest else (k', v') :: dictInsert k v rest

/-- lookupStr is dict lookup by ticker. -/
def lookupStr (k : String) : List (String × Table) → Option Table
  | [] => none
  | (k', v) :: rest => if k = k' then some v else lookupStr k rest

/-- fetchData is the loop of `fetch_data` over a provider that may raise
(`yf.download` modelled as `Except`): each ticker is downloaded in order
and stored unconditionally; the loop body has no exception handler, so a
raised error propagates immediately, discarding the partial dict. -/
def fetchData (download : String → Except String Table) :
    List (String × Table) → List String → Except String (List (String × Table))
  | acc, [] => Except.ok acc
  | acc, t :: ts =>
    match download t with
    | Except.error e => Except.error e
    | Except.ok df => fetchData download (dictInsert t df acc) ts

/-- fetchGoTotal is the same loop when every provider call returns a
table (possibly empty) rather than raising, which is how `yf.download`
reports failed downloads. -/
def fetchGoTotal (download : String → Table) (acc : List (String × Table)) :
    List String → List (String × Table)
  | [] => acc
  | t :: ts => fetchGoTotal download (dictInsert t (download t) acc) ts

/-- fetchDataTotal is `fetch_data` for a non-raising provider, started
from the empty dict. -/
def fetchDataTotal (download : String → Table) (tickers : List String) :
    List (String × Table) :=
  fetchGoTotal download [] tickers

/-- mainExitCode models the early-exit decision of `main`: after
`data = fetch_data(...)`, `if not data: sys.exit(1)`; otherwise the run
proceeds toward a normal exit. -/
def mainExitCode (download : String → Table) (tickers : List String) : Nat :=
  if fetchDataTotal download tickers = [] then 1 else 0

/-- timeoutDownload is a concrete provider whose network layer raises a
timeout for ticker "AAPL" and succeeds with an empty table otherwise. -/
def timeoutDownload : String → Except String Table :=
  fun t => if t == "AAPL" then Except.error "timeout" else Except.ok { index := [], cols := [] }

/-- emptyDownload is a concrete provider that returns a zero-row table
(the shape `yf.download` returns when a ticker yields no data) for every
ticker. -/
def emptyDownload : String → Table :=
  fun _ => { index := [], cols := [] }

/-! ## Helper lemmas about the fills -/

theorem ffillGo_length (last : Option Int) (l : List (Option Int)) :
    (ffillGo last l).length = l.length := by
  induction l generalizing last with
  | nil => rfl
  | cons x xs ih => cases x <;> simp [ffillGo, ih]

theorem ffillGo_isSome (last : Option Int) (l : List (Option Int)) (h : last.isSome) :
    ∀ y ∈ ffillGo last l, y.isSome := by
  induction l generalizing last with
  | nil => intro y hy; simp [ffillGo] at hy
  | cons x xs ih =>
    intro y hy
    cases x with
    | none =>
      rcases List.mem_cons.mp hy with rfl | hmem
      · exact h
      · exact ih last h y hmem
    | some v =>
      rcases List.mem_cons.mp hy with rfl | hmem
      · rfl
      · exact ih (some v) rfl y hmem

theorem ffillGo_all_none (l : List (Option Int)) (h : ∀ x ∈ l, x = none) :
    ffillGo none l = l := by
  induction l with
  | nil => rfl
  | cons x xs ih =>
    have hx : x = none := h x (by simp)
    subst hx
    show (none : Option Int) :: ffillGo none xs = none :: xs
    rw [ih (fun y hy => h y (by simp [hy]))]

theorem ffillGo_all_isSome (last : Option Int) (l : List (Option Int))
    (h : ∀ x ∈ l, x.isSome) : ffillGo last l = l := by
  induction l generalizing last with
  | nil => rfl
  | cons x xs ih =>
    cases x with
    | none => exact absurd (h none (by simp)) (by simp)
    | some v =>
      show some v :: ffillGo (some v) xs = some v :: xs
      rw [ih (some v) (fun y hy => h y (by simp [hy]))]

theorem ffillGo_reverse_head (last : Option Int) (l : List (Option Int))
    (h : ∃ x ∈ l, x.isSome) :
    ∃ v rest, (ffillGo last l).reverse = some v :: rest := by
  induction l generalizing last with
  | nil => simp at h
  | cons x xs ih =>
    cases x with
    | none =>
      obtain ⟨y, hy, hsome⟩ := h
      rcases List.mem_cons.mp hy with rfl | hmem
      · simp at hsome
      · obtain ⟨v, rest, hrev⟩ := ih last ⟨y, hmem, hsome⟩
        refine ⟨v, rest ++ [last], ?_⟩
        show (last :: ffillGo last xs).reverse = some v :: (rest ++ [last])
        rw [List.reverse_cons, hrev]
        rfl
    | some v =>
      have hall : ∀ y ∈ ffillGo (some v) xs, y.isSome := ffillGo_isSome (some v) xs rfl
      show ∃ w rest, (some v :: ffillGo (some v) xs).reverse = some w :: rest
      rw [List.reverse_cons]
      cases hrev : (ffillGo (some v) xs).reverse with
      | nil => exact ⟨v, [], rfl⟩
      | cons y rest' =>
        have hy : y ∈ ffillGo (some v) xs := by
          rw [← List.mem_reverse, hrev]
          simp
        obtain ⟨w, hw⟩ := Option.isSome_iff_exists.mp (hall y hy)
        exact ⟨w, rest' ++ [some v], by rw [hw]; rfl⟩

theorem cleanList_all_none (l : List (Option Int)) (h : ∀ x ∈ l, x = none) :
    cleanList l = l := by
  unfold cleanList bfillList ffillList
  rw [ffillGo_all_none l h,
    ffillGo_all_none l.reverse (fun x hx => h x (List.mem_reverse.mp hx)),
    List.reverse_reverse]

theorem cleanList_isSome (l : List (Option Int)) (h : ∃ x ∈ l, x.isSome) :
    ∀ y ∈ cleanList l, y.isSome := by
  unfold cleanList bfillList ffillList
  obtain ⟨v, rest, hrev⟩ := ffillGo_reverse_head none l h
  rw [hrev]
  intro y hy
  rw [List.mem_reverse] at hy
  rcases List.mem_cons.mp hy with rfl | hmem
  · rfl
  · exact ffillGo_isSome (some v) rest rfl y hmem

theorem cleanList_of_all_isSome (l : List (Option Int)) (h : ∀ x ∈ l, x.isSome) :
    cleanList l = l := by
  unfold cleanList bfillList ffillList
  rw [ffillGo_all_isSome none l h,
    ffillGo_all_isSome none l.reverse (fun x hx => h x (List.mem_reverse.mp hx)),
    List.reverse_reverse]

theorem cleanList_idem (l : List (Option Int)) :
    cleanList (cleanList l) = cleanList l := by
  by_cases h : ∃ x ∈ l, x.isSome
  · exact cleanList_of_all_isSome _ (cleanList_isSome l h)
  · have hn : ∀ x ∈ l, x = none := by
      intro x hx
      cases x with
      | none => rfl
      | some v => exact absurd ⟨some v, hx, rfl⟩ h
    rw [cleanList_all_none l hn, cleanList_all_none l hn]

theorem cleanTable_eq_map (t : Table) :
    cleanTable t =
      Table.mk t.index (t.cols.map (fun c => Col.mk c.name c.numeric (cleanList c.values))) := by
  obtain ⟨idx, cols⟩ := t
  simp only [cleanTable, bfillTable, ffillTable, List.map_map]
  rfl

/-- C2: after gap-filling as in `perform_eda` (`close_df.ffill().bfill()`),
every column of the table that had at least one non-missing value is left
with no missing value, and every column with zero non-missing values is
left entirely missing (unchanged); each column of the cleaned table is
the `cleanList` image of the matching input column. -/
theorem gap_fill_complete_or_all_missing (t : Table) (c : Col) (hc : c ∈ t.cols) :
    Col.mk c.name c.numeric (cleanList c.values) ∈ (cleanTable t).cols ∧
    ((∃ x ∈ c.values, x.isSome) → ∀ y ∈ cleanList c.values, y.isSome) ∧
    ((∀ x ∈ c.values, x = none) → cleanList c.values = c.values) := by
  refine ⟨?_, fun h => cleanList_isSome c.values h, fun h => cleanList_all_none c.values h⟩
  rw [cleanTable_eq_map t]
  exact List.mem_map_of_mem _ hc

/-- Witness for C2 at a concrete aggregated table: the column ["A"] with
values [some 1, none] has a non-missing value and is completely filled. -/
theorem gap_fill_complete_or_all_missing_witness :
    (∃ x ∈ [some (1 : Int), none], x.isSome) ∧
    (∀ y ∈ cleanList [some (1 : Int), none], y.isSome) :=
  ⟨by decide,
    (gap_fill_complete_or_all_missing
      (Table.mk [0, 1] [Col.mk "A" true [some 1, none]])
      (Col.mk "A" true [some 1, none]) (by decide)).2.1 (by decide)⟩

/-- C8: gap-filling is idempotent on any table, in particular on the
aggregated close table: applying `ffill` then `bfill` twice equals
applying it once. -/
theorem gap_fill_idempotent (t : Table) : cleanTable (cleanTable t) = cleanTable t := by
  rw [cleanTable_eq_map (cleanTable t), cleanTable_eq_map t]
  simp only [List.map_map]
  congr 1
  apply List.map_congr_left
  intro c _
  simp only [Function.comp]
  rw [cleanList_idem]

/-! ## Column Resolver claims -/

/-- C1: the resolver of `perform_eda` selects the close series by the
spec's fixed priority order — exact "Close", else first case-insensitive
"close" match, else first numeric column, else an all-missing series over
the table's date index (same length as that index by construction of
`allMissing`). The only textual difference, the extra `.empty` test on an
empty index before taking the first numeric column, is unobservable: both
sides produce the empty series there. -/
theorem resolver_priority_order (t : Table) : resolveClose t = resolveCloseSpec t := by
  unfold resolveClose resolveCloseSpec
  cases findColExact t with
  | some c => rfl
  | none =>
    cases findColFuzzy t with
    | some c => rfl
    | none =>
      cases numericCols t with
      | nil => rfl
      | cons c cs =>
        cases hidx : t.index with
        | nil => simp [hidx, allMissing]
        | cons d ds => simp [hidx]

/-- C9: for a table with a column named exactly "Close", the resolver
returns exactly that column's values, aligned to the table's date
index. -/
theorem resolver_exact_close (t : Table) (c : Col)
    (hfind : findColExact t = some c) (hlen : c.values.length = t.index.length) :
    (resolveClose t).map Prod.fst = t.index ∧ (resolveClose t).map Prod.snd = c.values := by
  unfold resolveClose
  rw [hfind]
  exact ⟨List.map_fst_zip t.index c.values (le_of_eq hlen.symm),
    List.map_snd_zip t.index c.values (le_of_eq hlen)⟩

/-- Witness for C9 at a concrete table holding a "Close" column. -/
theorem resolver_exact_close_witness :
    (resolveClose (Table.mk [0, 1] [Col.mk "Close" true [some 3, some 4]])).map Prod.fst
        = [0, 1] ∧
    (resolveClose (Table.mk [0, 1] [Col.mk "Close" true [some 3, some 4]])).map Prod.snd
        = [some 3, some 4] :=
  resolver_exact_close (Table.mk [0, 1] [Col.mk "Close" true [some 3, some 4]])
    (Col.mk "Close" true [some 3, some 4]) (by decide) (by decide)

/-! ## Helper lemmas about the aggregation index -/

theorem mem_insertDate (y d : Date) (l : List Date) :
    y ∈ insertDate d l ↔ y = d ∨ y ∈ l := by
  induction l with
  | nil => simp [insertDate]
  | cons x xs ih =>
    unfold insertDate
    by_cases h1 : d < x
    · rw [if_pos h1]
      simp [List.mem_cons]
    · rw [if_neg h1]
      by_cases h2 : d = x
      · subst h2
        rw [if_pos rfl]
        simp [List.mem_cons]
      · rw [if_neg h2]
        simp [List.mem_cons, ih]
        tauto

theorem mem_sortDedup (y : Date) (l : List Date) : y ∈ sortDedup l ↔ y ∈ l := by
  induction l with
  | nil => simp [sortDedup]
  | cons x xs ih =>
    show y ∈ insertDate x (sortDedup xs) ↔ y ∈ x :: xs
    rw [mem_insertDate, ih]
    simp [List.mem_cons]

theorem mem_unionDates (ss : List (String × Series)) (d : Date) :
    d ∈ unionDates ss ↔ ∃ p ∈ ss, d ∈ seriesDates p.2 := by
  unfold unionDates
  rw [mem_sortDedup]
  induction ss with
  | nil => simp
  | cons p ps ih =>
    show d ∈ seriesDates p.2 ++ _ ↔ _
    rw [List.mem_append, ih]
    simp [List.mem_cons]

theorem lookupDate_none_iff (s : Series) (d : Date) (hnd : (seriesDates s).Nodup) :
    lookupDate s d = none ↔ ¬ ∃ e ∈ s, e.1 = d ∧ e.2.isSome := by
  induction s with
  | nil => simp [lookupDate]
  | cons e es ih =>
    rw [show seriesDates (e :: es) = e.1 :: seriesDates es from rfl, List.nodup_cons] at hnd
    by_cases hd : e.1 = d
    · have hnone : ∀ e' ∈ es, e'.1 ≠ d := by
        intro e' he' hcontra
        exact hnd.1 (hd ▸ hcontra ▸ List.mem_map_of_mem Prod.fst he')
      have hlk : lookupDate (e :: es) d = e.2 := by
        unfold lookupDate
        simp [List.find?, hd]
      rw [hlk]
      constructor
      · rintro hv ⟨e', he', hde', hsome⟩
        rcases List.mem_cons.mp he' with rfl | hmem
        · rw [hv] at hsome
          simp at hsome
        · exact hnone e' hmem hde'
      · intro hno
        cases hv : e.2 with
        | none => rfl
        | some w => exact absurd ⟨e, List.mem_cons_self e es, hd, by rw [hv]; rfl⟩ hno
    · have hlk : lookupDate (e :: es) d = lookupDate es d := by
        have hb : (e.1 == d) = false := by
          simp [hd]
        unfold lookupDate
        rw [List.find?, hb]
      rw [hlk, ih hnd.2]
      constructor
      · rintro hno ⟨e', he', hde', hsome⟩
        rcases List.mem_cons.mp he' with rfl | hmem
        · exact hd hde'
        · exact hno ⟨e', hmem, hde', hsome⟩
      · rintro hno ⟨e', he', hde', hsome⟩
        exact hno ⟨e', List.mem_cons_of_mem e he', hde', hsome⟩

theorem zip_fst_snd (s : Series) : (s.map Prod.fst).zip (s.map Prod.snd) = s := by
  induction s with
  | nil => rfl
  | cons e es ih => simp [ih]

/-! ## Cross-Ticker Aggregator claims -/

/-- C6: aggregating exactly one ticker's close series yields a one-column
table whose single column carries the ticker's name, whose date index is
the series' index, and whose column re-paired with that index is the
input series exactly (round-trip). -/
theorem aggregate_single_round_trip (tick : String) (s : Series) :
    ∃ c, (aggregateClose [(tick, s)]).cols = [c] ∧ c.name = tick ∧
      (aggregateClose [(tick, s)]).index = s.map Prod.fst ∧
      (aggregateClose [(tick, s)]).index.zip c.values = s :=
  ⟨Col.mk tick true (s.map Prod.snd), rfl, rfl, rfl, zip_fst_snd s⟩

/-- C7: aggregating two or more tickers' series (each with a
duplicate-free date index) outer-joins them: column names follow the
input ticker order, the row set is the union of all input dates, each
column is the input order's series looked up date by date over that row
set, and a lookup is missing exactly when the ticker has no (non-missing)
value recorded for that date. -/
theorem aggregate_outer_join (ss : List (String × Series))
    (h2 : 2 ≤ ss.length) (hnd : ∀ p ∈ ss, (seriesDates p.2).Nodup) :
    ((aggregateClose ss).cols.map Col.name = ss.map Prod.fst) ∧
    (∀ d, d ∈ (aggregateClose ss).index ↔ ∃ p ∈ ss, d ∈ seriesDates p.2) ∧
    ((aggregateClose ss).cols = ss.map (fun p =>
        Col.mk p.1 true ((aggregateClose ss).index.map (fun d => lookupDate p.2 d)))) ∧
    (∀ p ∈ ss, ∀ d : Date, (lookupDate p.2 d = none ↔ ¬ ∃ e ∈ p.2, e.1 = d ∧ e.2.isSome)) := by
  match ss, h2 with
  | a :: b :: rest, _ =>
    have hcols : (aggregateClose (a :: b :: rest)).cols =
        (a :: b :: rest).map (fun p =>
          Col.mk p.1 true ((unionDates (a :: b :: rest)).map (fun d => lookupDate p.2 d))) := rfl
    refine ⟨?_, ?_, ?_, ?_⟩
    · rw [hcols, List.map_map]
      rfl
    · intro d
      exact mem_unionDates (a :: b :: rest) d
    · rfl
    · intro p hp d
      exact lookupDate_none_iff p.2 d (hnd p hp)

/-- Witness for C7 on two concrete single-date series with disjoint
dates: ticker order is preserved and date 0 appears in the joined
index because the first series holds it. -/
theorem aggregate_outer_join_witness :
    ((aggregateClose [("A", [((0 : Date), some (1 : Int))]),
        ("B", [((1 : Date), some (2 : Int))])]).cols.map Col.name = ["A", "B"]) ∧
    ((0 : Date) ∈ (aggregateClose [("A", [((0 : Date), some (1 : Int))]),
        ("B", [((1 : Date), some (2 : Int))])]).index ↔
      ∃ p ∈ [("A", [((0 : Date), some (1 : Int))]), ("B", [((1 : Date), some (2 : Int))])],
        (0 : Date) ∈ seriesDates p.2) :=
  ⟨(aggregate_outer_join _ (by decide) (by decide)).1,
    (aggregate_outer_join _ (by decide) (by decide)).2.1 0⟩

/-! ## Per-Ticker Reconciler claim -/

/-- Counterexample to C5 as stated: the original table's close-like
column is "Adj Close" (resolved by the fuzzy rule), the cleaned close for
its only date is 5, yet `save_cleaned_individuals` leaves the table
unchanged because it only rewrites a column named exactly "Close"; the
spec-worded reconciler would fill the close-like column. -/
theorem reconciler_close_like_counterexample :
    closeLikeName (Table.mk [0] [Col.mk "Adj Close" true [none]]) = some "Adj Close" ∧
    reconcileTicker (Table.mk [0] [Col.mk "A" true [some 5]]) "A"
        (Table.mk [0] [Col.mk "Adj Close" true [none]]) =
      Table.mk [0] [Col.mk "Adj Close" true [none]] ∧
    reconcileTickerSpec (Table.mk [0] [Col.mk "A" true [some 5]]) "A"
        (Table.mk [0] [Col.mk "Adj Close" true [none]]) =
      Table.mk [0] [Col.mk "Adj Close" true [some 5]] := by
  decide

/-- C5 amended: reconciling the cleaned close table into a ticker's
original table keeps the date index, rewrites exactly the columns named
"Close" with the cleaned ticker series realigned by date lookup (not
positionally), and leaves every other column unchanged; in particular a
table with no column named exactly "Close" — even one with another
close-like column — is returned unchanged and gets no column invented. -/
theorem reconciler_replaces_only_exact_close (cleaned : Table) (tick : String) (orig : Table) :
    (reconcileTicker cleaned tick orig).index = orig.index ∧
    (reconcileTicker cleaned tick orig).cols = orig.cols.map (fun c =>
      if c.name == "Close"
      then Col.mk c.name true (orig.index.map (fun d => lookupDate (colToSeries cleaned tick) d))
      else c) := by
  unfold reconcileTicker
  by_cases h : orig.cols.any (fun c => c.name == "Close")
  · rw [if_pos h]
    exact ⟨rfl, rfl⟩
  · rw [if_neg h]
    refine ⟨rfl, ?_⟩
    have hall : ∀ c ∈ orig.cols, (c.name == "Close") = false := by
      intro c hc
      rcases hb : c.name == "Close" with _ | _
      · rfl
      · exact absurd (List.any_eq_true.mpr ⟨c, hc, hb⟩) h
    rw [List.map_congr_left (g := id) (fun c hc => by rw [hall c hc]; rfl), List.map_id]

/-! ## Helper lemmas about the fetch dict -/

theorem keys_dictInsert (k : String) (v : Table) (d : List (String × Table)) (x : String) :
    x ∈ (dictInsert k v d).map Prod.fst ↔ x = k ∨ x ∈ d.map Prod.fst := by
  induction d with
  | nil => simp [dictInsert]
  | cons p rest ih =>
    obtain ⟨k', v'⟩ := p
    unfold dictInsert
    by_cases h : k = k'
    · subst h
      rw [if_pos rfl]
      simp [List.mem_cons]
    · rw [if_neg h]
      simp [List.mem_cons, ih]
      tauto

theorem keys_dictInsert_of_not_mem (k : String) (v : Table) (d : List (String × Table))
    (h : k ∉ d.map Prod.fst) :
    (dictInsert k v d).map Prod.fst = d.map Prod.fst ++ [k] := by
  induction d with
  | nil => rfl
  | cons p rest ih =>
    obtain ⟨k', v'⟩ := p
    simp only [List.map_cons, List.mem_cons] at h
    push_neg at h
    unfold dictInsert
    rw [if_neg h.1]
    simp only [List.map_cons, ih h.2]
    rfl

theorem keys_dictInsert_nodup (k : String) (v : Table) (d : List (String × Table))
    (h : (d.map Prod.fst).Nodup) :
    ((dictInsert k v d).map Prod.fst).Nodup := by
  induction d with
  | nil => simp [dictInsert]
  | cons p rest ih =>
    obtain ⟨k', v'⟩ := p
    simp only [List.map_cons, List.nodup_cons] at h
    unfold dictInsert
    by_cases he : k = k'
    · subst he
      rw [if_pos rfl]
      simp only [List.map_cons, List.nodup_cons]
      exact h
    · rw [if_neg he]
      simp only [List.map_cons, List.nodup_cons]
      refine ⟨?_, ih h.2⟩
      intro hmem
      rcases (keys_dictInsert k v rest k').mp hmem with he' | hm
      · exact he he'.symm
      · exact h.1 hm

theorem lookupStr_dictInsert_self (k : String) (v : Table) (d : List (String × Table)) :
    lookupStr k (dictInsert k v d) = some v := by
  induction d with
  | nil => simp [dictInsert, lookupStr]
  | cons p rest ih =>
    obtain ⟨k', v'⟩ := p
    unfold dictInsert
    by_cases h : k = k'
    · rw [if_pos h]
      simp [lookupStr]
    · rw [if_neg h]
      show lookupStr k ((k', v') :: dictInsert k v rest) = some v
      unfold lookupStr
      rw [if_neg h]
      exact ih

theorem lookupStr_dictInsert_other (k k' : String) (v : Table) (d : List (String × Table))
    (h : k ≠ k') :
    lookupStr k (dictInsert k' v d) = lookupStr k d := by
  induction d with
  | nil => simp [dictInsert, lookupStr, h]
  | cons p rest ih =>
    obtain ⟨k'', v''⟩ := p
    unfold dictInsert
    by_cases h2 : k' = k''
    · subst h2
      rw [if_pos rfl]
      unfold lookupStr
      rw [if_neg h, if_neg h]
    · rw [if_neg h2]
      show lookupStr k ((k'', v'') :: dictInsert k' v rest) = _
      unfold lookupStr
      by_cases h3 : k = k''
      · rw [if_pos h3, if_pos h3]
      · rw [if_neg h3, if_neg h3]
        exact ih

theorem fetchGoTotal_mem_keys (D : String → Table) (ts : List String) :
    ∀ (acc : List (String × Table)) (x : String),
      x ∈ (fetchGoTotal D acc ts).map Prod.fst ↔ x ∈ acc.map Prod.fst ∨ x ∈ ts := by
  induction ts with
  | nil =>
    intro acc x
    simp [fetchGoTotal]
  | cons t ts' ih =>
    intro acc x
    show x ∈ (fetchGoTotal D (dictInsert t (D t) acc) ts').map Prod.fst ↔ _
    rw [ih, keys_dictInsert]
    simp [List.mem_cons]
    tauto

theorem fetchGoTotal_nodup (D : String → Table) (ts : List String) :
    ∀ acc, ((acc.map Prod.fst : List String)).Nodup →
      ((fetchGoTotal D acc ts).map Prod.fst).Nodup := by
  induction ts with
  | nil =>
    intro acc h
    exact h
  | cons t ts' ih =>
    intro acc h
    exact ih _ (keys_dictInsert_nodup t (D t) acc h)

theorem fetchGoTotal_lookup_not_mem (D : String → Table) (ts : List String) :
    ∀ acc t, t ∉ ts → lookupStr t (fetchGoTotal D acc ts) = lookupStr t acc := by
  induction ts with
  | nil =>
    intro acc t _
    rfl
  | cons u ts' ih =>
    intro acc t h
    have h1 : t ≠ u := fun e => h (by simp [e])
    have h2 : t ∉ ts' := fun m => h (by simp [m])
    show lookupStr t (fetchGoTotal D (dictInsert u (D u) acc) ts') = _
    rw [ih _ t h2, lookupStr_dictInsert_other t u (D u) acc h1]

theorem fetchGoTotal_lookup_mem (D : String → Table) (ts : List String) :
    ∀ acc t, t ∈ ts → lookupStr t (fetchGoTotal D acc ts) = some (D t) := by
  induction ts with
  | nil =>
    intro acc t h
    simp at h
  | cons u ts' ih =>
    intro acc t h
    by_cases hm : t ∈ ts'
    · exact ih _ t hm
    · have ht : t = u := by
        rcases List.mem_cons.mp h with he | hm'
        · exact he
        · exact absurd hm' hm
      subst ht
      show lookupStr t (fetchGoTotal D (dictInsert t (D t) acc) ts') = some (D t)
      rw [fetchGoTotal_lookup_not_mem D ts' _ t hm, lookupStr_dictInsert_self]

theorem fetchGoTotal_keys_of_nodup (D : String → Table) (ts : List String) :
    ∀ acc, ts.Nodup → (∀ u ∈ ts, u ∉ acc.map Prod.fst) →
      (fetchGoTotal D acc ts).map Prod.fst = acc.map Prod.fst ++ ts := by
  induction ts with
  | nil =>
    intro acc _ _
    simp [fetchGoTotal]
  | cons t ts' ih =>
    intro acc hnd hdisj
    have hnmem : t ∉ acc.map Prod.fst := hdisj t (by simp)
    have hstep : (dictInsert t (D t) acc).map Prod.fst = acc.map Prod.fst ++ [t] :=
      keys_dictInsert_of_not_mem t (D t) acc hnmem
    rw [List.nodup_cons] at hnd
    show (fetchGoTotal D (dictInsert t (D t) acc) ts').map Prod.fst = _
    have hdisj' : ∀ u ∈ ts', u ∉ (dictInsert t (D t) acc).map Prod.fst := by
      intro u hu
      rw [hstep, List.mem_append]
      rintro (hua | hut)
      · exact hdisj u (by simp [hu]) hua
      · simp at hut
        exact hnd.1 (hut ▸ hu)
    rw [ih _ hnd.2 hdisj', hstep]
    simp

/-! ## Ticker Data Fetcher and Pipeline Driver claims -/

/-- Counterexample to C4 as stated: with a provider whose network layer
raises a timeout for "AAPL", the fetch loop — `fetch_data` contains no
exception handler — propagates the error immediately, so the remaining
ticker "MSFT" is never fetched and no mapping at all is produced: the
failure is not caught during the fetch stage and does prevent processing
of the remaining tickers. -/
theorem fetch_failure_aborts_counterexample :
    fetchData timeoutDownload [] ["AAPL", "MSFT"] = Except.error "timeout" := rfl

/-- C4 amended: `fetch_data` itself catches nothing, so a provider call
that raises aborts the fetch of all remaining tickers; but when the
provider reports per-ticker failures by returning a table (possibly
empty) instead of raising — which is how `yf.download` behaves — each
requested ticker's entry is exactly the provider's table for that
ticker, independent of what the provider returned for any other
ticker. -/
theorem fetch_total_independent (D : String → Table) (ts : List String) (t : String)
    (h : t ∈ ts) :
    lookupStr t (fetchDataTotal D ts) = some (D t) :=
  fetchGoTotal_lookup_mem D ts [] t h

/-- Witness for the amended C4: "MSFT"'s entry is the provider's table
for "MSFT" even though the "AAPL" download came back empty. -/
theorem fetch_total_independent_witness :
    lookupStr "MSFT" (fetchDataTotal emptyDownload ["AAPL", "MSFT"]) =
      some (Table.mk [] []) :=
  fetch_total_independent emptyDownload ["AAPL", "MSFT"] "MSFT" (by decide)

/-- C10: for any non-raising provider, the fetch loop of `fetch_data`
produces a mapping whose keys are exactly the requested tickers (one
entry per ticker, duplicate-free, in request order for a duplicate-free
request list), where every requested ticker — including one whose table
came back empty — maps to the table the provider returned for it; hence
the mapping is non-empty whenever the ticker list is non-empty. -/
theorem fetch_one_entry_per_ticker (D : String → Table) (ts : List String) :
    (∀ t, t ∈ (fetchDataTotal D ts).map Prod.fst ↔ t ∈ ts) ∧
    ((fetchDataTotal D ts).map Prod.fst).Nodup ∧
    (ts.Nodup → (fetchDataTotal D ts).map Prod.fst = ts) ∧
    (∀ t ∈ ts, lookupStr t (fetchDataTotal D ts) = some (D t)) ∧
    (ts ≠ [] → fetchDataTotal D ts ≠ []) := by
  refine ⟨?_, ?_, ?_, ?_, ?_⟩
  · intro t
    unfold fetchDataTotal
    rw [fetchGoTotal_mem_keys]
    simp
  · unfold fetchDataTotal
    exact fetchGoTotal_nodup D ts [] (by simp)
  · intro hnd
    unfold fetchDataTotal
    rw [fetchGoTotal_keys_of_nodup D ts [] hnd (by simp)]
    rfl
  · intro t ht
    exact fetchGoTotal_lookup_mem D ts [] t ht
  · intro hne hnil
    rcases ts with _ | ⟨t, ts'⟩
    · exact hne rfl
    · have hmem : t ∈ (fetchGoTotal D [] (t :: ts')).map Prod.fst := by
        rw [fetchGoTotal_mem_keys]
        simp
      rw [show fetchGoTotal D [] (t :: ts') = fetchDataTotal D (t :: ts') from rfl,
        hnil] at hmem
      simp at hmem

/-- Witness for C10: one requested ticker whose download is empty still
yields a one-entry, non-empty mapping. -/
theorem fetch_one_entry_per_ticker_witness :
    (fetchDataTotal emptyDownload ["AAPL"]).map Prod.fst = ["AAPL"] ∧
    fetchDataTotal emptyDownload ["AAPL"] ≠ [] :=
  ⟨(fetch_one_entry_per_ticker emptyDownload ["AAPL"]).2.2.1 (by decide),
    (fetch_one_entry_per_ticker emptyDownload ["AAPL"]).2.2.2.2 (by decide)⟩

/-- C3, evaluated at the failing input: requesting one ticker whose
download comes back as an empty table still yields a one-entry mapping,
so the guard `if not data: sys.exit(1)` of `main` does not fire and the
exit-status decision is 0 — while the claim requires a non-zero exit
status when the fetch returns empty tables for every requested
ticker. -/
theorem exit_guard_passes_on_all_empty_tables :
    fetchDataTotal emptyDownload ["AAPL"] = [("AAPL", Table.mk [] [])] ∧
    mainExitCode emptyDownload ["AAPL"] = 0 := by
  exact ⟨rfl, rfl⟩
